import Mathlib

/-!
Shallow embedding of `src/monitor_deloitte_jobs.py`, a script that drives a
rendered job-listing page, applies a location filter, extracts job postings,
and diffs them against a persisted per-search snapshot.

Strings are modelled as Lean `String` (a wrapper around `List Char`), with the
Python string operations (`strip`, `lstrip`, `re.sub`, `startswith`, `in`,
`lower`, comparison) re-implemented over `List Char` so that they are
kernel-executable.  Python code points and Lean `Char` code points agree.
The filesystem state directory is modelled as a map from search key to the
stored record; browser interaction is modelled by an abstract page / an
abstract extraction outcome, with the UI actions of the filter routine
recorded as an explicit effect trace.
-/

/-- Whitespace class used by Python `str.strip()` and `re` `\s` on the ASCII
range (space, tab, newline, carriage return, vertical tab, form feed). -/
def isPySpace (c : Char) : Bool :=
  c = ' ' || c = '\t' || c = '\n' || c = '\r' || c = '\x0b' || c = '\x0c'

/-- Python `str.strip()`: drop leading and trailing whitespace. -/
def pyStrip (l : List Char) : List Char :=
  ((l.dropWhile isPySpace).reverse.dropWhile isPySpace).reverse

/-- Left-to-right scan for `collapseWS`; the flag records whether the previous
character belonged to a whitespace run already replaced by a space. -/
def collapseAux : Bool → List Char → List Char
  | _, [] => []
  | prevSpace, c :: rest =>
    if isPySpace c then
      if prevSpace then collapseAux true rest
      else ' ' :: collapseAux true rest
    else c :: collapseAux false rest

/-- Python `re.sub(r"\s+", " ", s)`: replace every maximal whitespace run by a
single space. -/
def collapseWS (l : List Char) : List Char := collapseAux false l

/-- Python `s.startswith(p)` over explicit character lists. -/
def startsWithL : List Char → List Char → Bool
  | [], _ => true
  | _ :: _, [] => false
  | p :: ps, c :: cs => p = c && startsWithL ps cs

/-- Python `s.startswith(p)` on `String`. -/
def strStartsWith (s p : String) : Bool := startsWithL p.data s.data

/-- Python `pat in s` (substring containment) over character lists. -/
def containsSub (pat : List Char) : List Char → Bool
  | [] => pat.isEmpty
  | c :: rest => startsWithL pat (c :: rest) || containsSub pat rest

/-- Python `s.lower()` restricted to the ASCII mapping used by the URLs here. -/
def toLowerL (l : List Char) : List Char := l.map Char.toLower

/-- Python string comparison: lexicographic on code points. -/
def listLe : List Char → List Char → Bool
  | [], _ => true
  | _ :: _, [] => false
  | a :: as, b :: bs =>
    decide (a.toNat < b.toNat) || (decide (a.toNat = b.toNat) && listLe as bs)

/-- A job posting: dict with keys `title` and `url` in the script. -/
structure Job where
  title : String
  url : String
deriving DecidableEq, Repr

/-- `normalize_job`: collapse whitespace runs in the stripped title, strip the
url (`re.sub(r"\s+", " ", title.strip())` and `url.strip()`). -/
def normalize_job (j : Job) : Job :=
  { title := String.mk (collapseWS (pyStrip j.title.data)),
    url := String.mk (pyStrip j.url.data) }

/-- The set comprehension in `diff_jobs`:
`old_urls = {j.get("url") for j in old_jobs if j.get("url")}` (truthy urls). -/
def oldUrlSet (old_jobs : List Job) : List String :=
  (old_jobs.filter (fun j => !(j.url == ""))).map Job.url

/-- `diff_jobs(old_jobs, new_jobs)`: the jobs of `new_jobs` with a truthy url
that is not among the truthy urls of `old_jobs`. -/
def diff_jobs (old_jobs new_jobs : List Job) : List Job :=
  new_jobs.filter (fun j => decide (j.url ≠ "" ∧ j.url ∉ oldUrlSet old_jobs))

/-- The deduplication loop in `extract_jobs_with_playwright`: normalize each
job, skip empty urls and urls already seen, keep the rest in input order.
`seen` is the `seen` set of the script. -/
def dedupePass (seen : List String) : List Job → List Job
  | [] => []
  | j :: rest =>
    let jn := normalize_job j
    if jn.url = "" ∨ jn.url ∈ seen then dedupePass seen rest
    else jn :: dedupePass (jn.url :: seen) rest

/-- Order on jobs used by `unique_jobs.sort(key=lambda x: x["url"])`. -/
def jobLe (a b : Job) : Prop := listLe a.url.data b.url.data = true

instance : DecidableRel jobLe := fun a b => by
  unfold jobLe; infer_instance

/-- `unique_jobs` after the dedupe loop and the final url sort. -/
def dedupe (jobs : List Job) : List Job :=
  List.insertionSort jobLe (dedupePass [] jobs)

/-- The site origin hardcoded by the extractor. -/
def SITE_ORIGIN : String := "https://apply.deloitte.co.uk"

/-- Python `href.lstrip("/")`. -/
def lstripSlash (s : String) : String :=
  String.mk (s.data.dropWhile (fun c => c = '/'))

/-- The href resolution of `extract_jobs_with_playwright`: a leading `/` gets
the origin prefixed, an `http` prefix is kept as-is, anything else is appended
to the origin after a `/`. -/
def resolveHref (href : String) : String :=
  if strStartsWith href "/" then SITE_ORIGIN ++ href
  else if strStartsWith href "http" then href
  else SITE_ORIGIN ++ "/" ++ lstripSlash href

/-- Helper for `hasScheme_spec`: scan for the `:` that closes a URI scheme. -/
def schemeTail : List Char → Bool
  | [] => false
  | c :: rest =>
    if c = ':' then true
    else (c.isAlphanum || c = '+' || c = '-' || c = '.') && schemeTail rest

/-- Modelled from the spec's words, for comparison with `resolveHref`: a URL
"is already absolute (has a scheme)" when it begins with a URI scheme, i.e. a
letter followed by letters, digits, `+`, `-` or `.` up to a `:`. -/
def hasScheme_spec (s : String) : Bool :=
  match s.data with
  | [] => false
  | c :: rest => c.isAlpha && schemeTail rest

/-- The fixed substring allow-list for job-detail URLs. -/
def jobUrlPats : List (List Char) :=
  ["job".data, "vacancy".data, "jobid".data, "requisition".data,
   "posting".data, "careers/job".data, "ukcareers/job".data]

/-- `looks_like_job`: some allow-listed substring occurs in the lower-cased
resolved URL. -/
def looksLikeJob (url : String) : Bool :=
  jobUrlPats.any (fun pat => containsSub pat (toLowerL url.data))

/-- A link element as the extractor sees it: its `href` attribute and its
visible inner text. -/
structure Anchor where
  href : String
  text : String
deriving DecidableEq, Repr

/-- The per-anchor body of the extraction loop: skip empty hrefs, resolve the
href, and emit a job when the URL looks job-like and the stripped text length
lies in `6 ≤ len ≤ 160`. -/
def anchorToJob (a : Anchor) : Option Job :=
  let text := String.mk (pyStrip a.text.data)
  if a.href = "" then none
  else
    let hrefAbs := resolveHref a.href
    if looksLikeJob hrefAbs && (decide (6 ≤ text.length) && decide (text.length ≤ 160))
    then some { title := text, url := hrefAbs }
    else none

/-- The `jobs` list accumulated over all anchors (before deduplication). -/
def extractCandidates (anchors : List Anchor) : List Job :=
  anchors.filterMap anchorToJob

/-- The configured base listing URL. -/
def BASE_SEARCH_URL : String :=
  "https://apply.deloitte.co.uk/UKCareers/SearchJobs/?161=%5B219%2C222%5D&161_format=273&3884=%5B330998%5D&3884_format=3018&listFilterMode=1&jobRecordsPerPage=20&"

/-- The persisted per-search state payload (`.state/deloitte_jobs_<key>.json`). -/
structure StateRecord where
  search_key : String
  source_url : String
  last_checked_utc : Option String
  jobs : List Job
deriving DecidableEq, Repr

/-- The `.state` directory, modelled as a map from search key to the stored
record (JSON serialization round-trips these payloads). -/
abbrev Store := String → Option StateRecord

/-- `load_previous`: the stored record, or the empty first-run record when no
state file exists for the key. -/
def load_previous (st : Store) (key : String) : StateRecord :=
  match st key with
  | none => { search_key := key, source_url := BASE_SEARCH_URL,
              last_checked_utc := none, jobs := [] }
  | some r => r

/-- `save_current`: unconditionally overwrite the record for `key` with the
given jobs and the current timestamp. -/
def save_current (st : Store) (key : String) (jobs : List Job) (now : String) : Store :=
  fun k =>
    if k = key then
      some { search_key := key, source_url := BASE_SEARCH_URL,
             last_checked_utc := some now, jobs := jobs }
    else st k

/-- The fatal errors a single search can raise: the two `RuntimeError`s of
`apply_location_filters_strict` and the navigation timeout of `page.goto`. -/
inductive FatalError where
  | filterControlNotFound
  | locationNotSelectable (loc : String)
  | navigationTimeout
deriving DecidableEq, Repr

/-- One entry of the `SEARCHES` table. -/
structure Config where
  key : String
  label : String
  locations : List String
deriving DecidableEq, Repr

/-- The `SearchResult` dataclass. -/
structure SearchResult where
  key : String
  label : String
  url : String
  jobs : List Job
  new_jobs : List Job
  page_title : String
deriving DecidableEq, Repr

/-- The aggregate report written by `save_report`. -/
structure RunReport where
  run_utc : String
  base_url : String
  results : List SearchResult
deriving DecidableEq, Repr

/-- The `for key, cfg in SEARCHES.items()` loop of `main`.  `ext` abstracts
`extract_jobs_with_playwright(BASE_SEARCH_URL, locations)`, whose exceptions
(filter failures, navigation timeout) surface as `Except.error`; the loop body
has no exception handler, so an error aborts the remaining iterations and no
further state is saved. -/
def runSearches (ext : List String → Except FatalError (List Job × String)) (now : String) :
    List Config → Store → Store × Except FatalError (List SearchResult)
  | [], st => (st, Except.ok [])
  | cfg :: rest, st =>
    match ext cfg.locations with
    | Except.error e => (st, Except.error e)
    | Except.ok (currentJobs, pageTitle) =>
      match runSearches ext now rest (save_current st cfg.key currentJobs now) with
      | (st3, Except.error e) => (st3, Except.error e)
      | (st3, Except.ok rs) =>
        (st3, Except.ok
          ({ key := cfg.key, label := cfg.label, url := BASE_SEARCH_URL,
             jobs := currentJobs,
             new_jobs := diff_jobs (load_previous st cfg.key).jobs currentJobs,
             page_title := pageTitle } :: rs))

/-- `main`: run all configured searches, then `save_report`.  The returned
triple is the final state directory, the written report (`none` when the run
died with an unhandled exception before reaching `save_report`), and the
propagated error if any. -/
def mainRun (ext : List String → Except FatalError (List Job × String))
    (searches : List Config) (st : Store) (now : String) :
    Store × Option RunReport × Option FatalError :=
  match runSearches ext now searches st with
  | (st2, Except.error e) => (st2, none, some e)
  | (st2, Except.ok rs) => (st2, some { run_utc := now, base_url := BASE_SEARCH_URL, results := rs }, none)

/-- The `SEARCHES` table of the script. -/
def SEARCHES : List Config :=
  [{ key := "edinburgh-only", label := "Deloitte jobs: Edinburgh only", locations := ["Edinburgh"] },
   { key := "glasgow-only", label := "Deloitte jobs: Glasgow only", locations := ["Glasgow"] }]

/-- A state directory with no files in it. -/
def emptyStore : Store := fun _ => none

/-- A browser world where the Edinburgh search dies on its filter step and the
Glasgow search succeeds with one job. -/
def badExt : List String → Except FatalError (List Job × String) := fun locs =>
  if locs = ["Edinburgh"] then Except.error FatalError.filterControlNotFound
  else Except.ok ([{ title := "Audit Analyst", url := "https://apply.deloitte.co.uk/job/77" }], "Search Jobs")

/-- One observable browser action of `apply_location_filters_strict`.  The
`screenshot` and `domSnapshot` constructors stand for the diagnostic-capture
actions the specification describes; the embedding of the source emits an
effect for every page interaction it performs. -/
inductive Effect where
  | click (desc : String)
  | check (desc : String)
  | waitMs (ms : Nat)
  | waitNetworkIdle
  | waitVisible (desc : String)
  | screenshot (tag : String)
  | domSnapshot (tag : String)
deriving DecidableEq, Repr

/-- Whether an effect writes part of a diagnostic bundle. -/
def Effect.isDiagnostic : Effect → Bool
  | Effect.screenshot _ => true
  | Effect.domSnapshot _ => true
  | _ => false

/-- The rendered page, abstracted to the outcomes of the locator strategies
the filter routine attempts (one Bool per locator in source order; a location
indexed strategy is a predicate on the location name). -/
structure Page where
  openOutcomes : List Bool
  clearOutcomes : List Bool
  checkByLabel : String → Bool
  clickLabelHasText : String → Bool
  clickTextRow : String → Bool
  applyOutcomes : List Bool
  textVisible : String → Bool

/-- `_try_click_first`: click the first locator of the list that exists and is
visible; report whether anything was clicked. -/
def try_click_first : List (String × Bool) → List Effect × Bool
  | [] => ([], false)
  | (desc, ok) :: rest =>
    if ok then ([Effect.click desc], true) else try_click_first rest

/-- The four locators tried to open the Location filter panel. -/
def openLocatorDescs : List String :=
  ["get_by_role button name Location", "get_by_role link name Location",
   "locator button has-text Location", "locator text Location parent"]

/-- The three locators tried to clear existing selections. -/
def clearLocatorDescs : List String :=
  ["get_by_role button name Clear Reset RemoveAll", "locator button has-text Clear",
   "locator button has-text Reset"]

/-- The four locators tried to commit the selection. -/
def applyLocatorDescs : List String :=
  ["get_by_role button name Apply Done Update ShowResults", "locator button has-text Apply",
   "locator button has-text Done", "locator button has-text Update"]

/-- The three fallback strategies for ticking one location, in source order:
check by accessible label, click a label containing the text, click the raw
text row. -/
def selectLocation (pg : Page) (loc : String) : List Effect × Bool :=
  if pg.checkByLabel loc then ([Effect.check ("get_by_label " ++ loc)], true)
  else if pg.clickLabelHasText loc then ([Effect.click ("label has-text " ++ loc)], true)
  else if pg.clickTextRow loc then ([Effect.click ("text row " ++ loc)], true)
  else ([], false)

/-- The `for loc in locations` selection loop: strip the name, skip empty
names, and raise `LocationNotSelectable` when every strategy fails for some
location. -/
def selectLocations (pg : Page) : List String → List Effect × Except FatalError Unit
  | [] => ([], Except.ok ())
  | loc0 :: rest =>
    let loc := String.mk (pyStrip loc0.data)
    if loc = "" then selectLocations pg rest
    else
      match selectLocation pg loc with
      | (es, true) =>
        match selectLocations pg rest with
        | (es2, r) => (es ++ es2, r)
      | (es, false) => (es, Except.error (FatalError.locationNotSelectable loc))

/-- `apply_location_filters_strict`: open the Location panel (fatal when no
locator matches), best-effort clear, strict selection of every location,
best-effort apply, settle, and best-effort visibility verification.  The
effect trace records every page interaction the source performs. -/
def apply_location_filters_strict (pg : Page) (locations : List String) :
    List Effect × Except FatalError Unit :=
  match try_click_first (openLocatorDescs.zip pg.openOutcomes) with
  | (es1, false) => (es1, Except.error FatalError.filterControlNotFound)
  | (es1, true) =>
    let es2 := [Effect.waitMs 800]
    let es3 := (try_click_first (clearLocatorDescs.zip pg.clearOutcomes)).1
    match selectLocations pg locations with
    | (es4, Except.error e) => (es1 ++ es2 ++ es3 ++ es4, Except.error e)
    | (es4, Except.ok _) =>
      let es5 := (try_click_first (applyLocatorDescs.zip pg.applyOutcomes)).1
      let es6 := [Effect.waitNetworkIdle, Effect.waitMs 800]
      let es7 := locations.map (fun loc => Effect.waitVisible loc)
      let es8 := [Effect.waitMs 500]
      (es1 ++ es2 ++ es3 ++ es4 ++ es5 ++ es6 ++ es7 ++ es8, Except.ok ())

/-- A page on which no locator strategy ever matches. -/
def deadPage : Page :=
  { openOutcomes := [false, false, false, false],
    clearOutcomes := [false, false, false],
    checkByLabel := fun _ => false,
    clickLabelHasText := fun _ => false,
    clickTextRow := fun _ => false,
    applyOutcomes := [false, false, false, false],
    textVisible := fun _ => false }

/-- The list has no leading whitespace character. -/
def noLeadWS (l : List Char) : Prop := ∀ c, l.head? = some c → isPySpace c = false

/-- The list has no trailing whitespace character. -/
def noTrailWS (l : List Char) : Prop := ∀ c, l.getLast? = some c → isPySpace c = false

/-- No two adjacent whitespace characters. -/
def noAdjWS (l : List Char) : Prop :=
  l.Chain' (fun a b => ¬(isPySpace a = true ∧ isPySpace b = true))

/-- Every whitespace character of the list is a plain space. -/
def spacesBlank (l : List Char) : Prop := ∀ c ∈ l, isPySpace c = true → c = ' '

/-! ### Generic `dropWhile` facts -/

theorem head_dropWhile_false {α : Type} {p : α → Bool} (l : List α) (c : α)
    (h : (l.dropWhile p).head? = some c) : p c = false := by
  induction l with
  | nil => simp [List.dropWhile] at h
  | cons a as ih =>
    rw [List.dropWhile_cons] at h
    by_cases ha : p a = true
    · rw [if_pos ha] at h
      exact ih h
    · rw [if_neg ha] at h
      simp only [List.head?_cons, Option.some.injEq] at h
      subst h
      simpa using ha

theorem dropWhile_eq_self_of_head {α : Type} {p : α → Bool} (l : List α)
    (h : ∀ c, l.head? = some c → p c = false) : l.dropWhile p = l := by
  cases l with
  | nil => rfl
  | cons a as =>
    rw [List.dropWhile_cons, if_neg]
    simp [h a rfl]

theorem getLast_dropWhile_of_ne_nil {α : Type} {p : α → Bool} (l : List α)
    (h : l.dropWhile p ≠ []) : (l.dropWhile p).getLast? = l.getLast? := by
  induction l with
  | nil => simp [List.dropWhile] at h
  | cons a as ih =>
    rw [List.dropWhile_cons] at h ⊢
    by_cases ha : p a = true
    · rw [if_pos ha] at h ⊢
      have has : as ≠ [] := by
        intro hnil
        rw [hnil] at h
        exact h rfl
      rw [ih h]
      cases as with
      | nil => exact absurd rfl has
      | cons b bs => simp
    · rw [if_neg ha]

/-! ### `pyStrip` facts -/

theorem pyStrip_noLead (l : List Char) : noLeadWS (pyStrip l) := by
  intro c hc
  unfold pyStrip at hc
  rw [List.head?_reverse] at hc
  rcases hY : ((l.dropWhile isPySpace).reverse.dropWhile isPySpace) with _ | ⟨y, ys⟩
  · rw [hY] at hc; simp at hc
  · have hne : (l.dropWhile isPySpace).reverse.dropWhile isPySpace ≠ [] := by
      rw [hY]; simp
    rw [getLast_dropWhile_of_ne_nil _ hne, List.getLast?_reverse] at hc
    exact head_dropWhile_false l c hc

theorem pyStrip_noTrail (l : List Char) : noTrailWS (pyStrip l) := by
  intro c hc
  unfold pyStrip at hc
  rw [List.getLast?_reverse] at hc
  exact head_dropWhile_false _ c hc

theorem pyStrip_eq_self {l : List Char} (h1 : noLeadWS l) (h2 : noTrailWS l) :
    pyStrip l = l := by
  unfold pyStrip
  rw [dropWhile_eq_self_of_head l h1]
  rw [dropWhile_eq_self_of_head l.reverse (fun c hc => h2 c (by rwa [List.head?_reverse] at hc))]
  exact List.reverse_reverse l

/-! ### `collapseAux` facts -/

theorem collapseAux_head_true (l : List Char) (c : Char)
    (h : (collapseAux true l).head? = some c) : isPySpace c = false := by
  induction l with
  | nil => simp [collapseAux] at h
  | cons a as ih =>
    by_cases ha : isPySpace a = true
    · rw [collapseAux, if_pos ha, if_pos rfl] at h
      exact ih h
    · rw [collapseAux, if_neg ha] at h
      simp only [List.head?_cons, Option.some.injEq] at h
      subst h
      simpa using ha

theorem collapseAux_noLead {l : List Char} (h : noLeadWS l) :
    noLeadWS (collapseAux false l) := by
  intro c hc
  cases l with
  | nil => simp [collapseAux] at hc
  | cons a as =>
    have ha : isPySpace a = false := h a rfl
    rw [collapseAux, if_neg (by simp [ha])] at hc
    simp only [List.head?_cons, Option.some.injEq] at hc
    subst hc
    exact ha

theorem collapseAux_spacesBlank (l : List Char) : ∀ b, spacesBlank (collapseAux b l) := by
  induction l with
  | nil => intro b c hc; simp [collapseAux] at hc
  | cons a as ih =>
    intro b c hc hsp
    by_cases ha : isPySpace a = true
    · rw [collapseAux, if_pos ha] at hc
      cases b with
      | true => exact ih true c (by simpa using hc) hsp
      | false =>
        rw [if_neg (by simp)] at hc
        rcases List.mem_cons.mp hc with h | h
        · exact h
        · exact ih true c h hsp
    · rw [collapseAux, if_neg ha] at hc
      rcases List.mem_cons.mp hc with h | h
      · subst h; exact absurd hsp ha
      · exact ih false c h hsp

theorem collapseAux_noAdj (l : List Char) : ∀ b, noAdjWS (collapseAux b l) := by
  induction l with
  | nil => intro b; simp [collapseAux, noAdjWS]
  | cons a as ih =>
    intro b
    by_cases ha : isPySpace a = true
    · rw [collapseAux, if_pos ha]
      cases b with
      | true => exact ih true
      | false =>
        rw [if_neg (by simp)]
        unfold noAdjWS at ih ⊢
        rw [List.chain'_cons']
        refine ⟨?_, ih true⟩
        intro y hy
        rw [Option.mem_def] at hy
        have : isPySpace y = false := collapseAux_head_true as y hy
        simp [this]
    · rw [collapseAux, if_neg ha]
      unfold noAdjWS at ih ⊢
      rw [List.chain'_cons']
      refine ⟨?_, ih false⟩
      intro y _
      simp [ha]

theorem getLast_cons_of_ne_nil {α : Type} (a : α) {as : List α} (h : as ≠ []) :
    (a :: as).getLast? = as.getLast? := by
  cases as with
  | nil => exact absurd rfl h
  | cons b bs => simp

theorem collapseAux_flag_of_head (l : List Char)
    (h : ∀ c, l.head? = some c → isPySpace c = false) (b b' : Bool) :
    collapseAux b l = collapseAux b' l := by
  cases l with
  | nil => rfl
  | cons a as =>
    have ha : isPySpace a = false := h a rfl
    rw [collapseAux, collapseAux, if_neg (by simp [ha]), if_neg (by simp [ha])]

theorem collapseAux_false_ne_nil {l : List Char} (h : l ≠ []) :
    collapseAux false l ≠ [] := by
  cases l with
  | nil => exact absurd rfl h
  | cons a as =>
    by_cases ha : isPySpace a = true
    · rw [collapseAux, if_pos ha, if_neg (by simp)]; simp
    · rw [collapseAux, if_neg ha]; simp

theorem collapseAux_true_eq_nil (l : List Char) :
    collapseAux true l = [] ↔ ∀ c ∈ l, isPySpace c = true := by
  induction l with
  | nil => simp [collapseAux]
  | cons a as ih =>
    by_cases ha : isPySpace a = true
    · rw [collapseAux, if_pos ha, if_pos rfl]
      simp [ih, ha]
    · rw [collapseAux, if_neg ha]
      simp only [List.cons_ne_nil, false_iff]
      intro hall
      exact ha (hall a (List.mem_cons_self a as))

theorem collapse_eq_self {l : List Char} (hadj : noAdjWS l) (hblank : spacesBlank l) :
    collapseAux false l = l := by
  induction l with
  | nil => rfl
  | cons a as ih =>
    by_cases ha : isPySpace a = true
    · have haeq : a = ' ' := hblank a (List.mem_cons_self a as) ha
      rw [collapseAux, if_pos ha, if_neg (by simp)]
      have hhead : ∀ c, as.head? = some c → isPySpace c = false := by
        intro c hc
        unfold noAdjWS at hadj
        rw [List.chain'_cons'] at hadj
        have := hadj.1 c (by rw [Option.mem_def]; exact hc)
        by_contra hcc
        exact this ⟨ha, by simpa using hcc⟩
      rw [collapseAux_flag_of_head as hhead true false]
      rw [ih (by unfold noAdjWS at hadj ⊢; exact hadj.tail)
            (fun c hc hs => hblank c (List.mem_cons_of_mem a hc) hs)]
      rw [haeq]
    · rw [collapseAux, if_neg ha]
      rw [ih (by unfold noAdjWS at hadj ⊢; exact hadj.tail)
            (fun c hc hs => hblank c (List.mem_cons_of_mem a hc) hs)]

theorem collapseAux_noTrail (l : List Char) :
    noTrailWS l → ∀ b, noTrailWS (collapseAux b l) := by
  induction l with
  | nil => intro _ b; intro c hc; simp [collapseAux] at hc
  | cons a as ih =>
    intro h b
    by_cases ha : isPySpace a = true
    · by_cases hasne0 : as = []
      · subst hasne0
        exact absurd (h a rfl) (by simp [ha])
      · have hasne : as ≠ [] := hasne0
        have htas : noTrailWS as := by
          intro c hc
          exact h c (by rw [getLast_cons_of_ne_nil a hasne]; exact hc)
        rw [collapseAux, if_pos ha]
        cases b with
        | true => rw [if_pos rfl]; exact ih htas true
        | false =>
          rw [if_neg (by simp)]
          have hXne : collapseAux true as ≠ [] := by
            intro hX
            have hall := (collapseAux_true_eq_nil as).mp hX
            rcases Option.isSome_iff_exists.mp (List.getLast?_isSome.mpr hasne) with ⟨c, hc⟩
            have hmem := List.mem_of_getLast?_eq_some hc
            exact absurd (hall c hmem) (by simp [htas c hc])
          intro c hc
          rw [getLast_cons_of_ne_nil ' ' hXne] at hc
          exact ih htas true c hc
    · by_cases hasne0 : as = []
      · subst hasne0
        intro c hc
        rw [collapseAux, if_neg ha] at hc
        simp only [collapseAux] at hc
        simp only [List.getLast?_singleton, Option.some.injEq] at hc
        subst hc
        simpa using ha
      · have hasne : as ≠ [] := hasne0
        have htas : noTrailWS as := by
          intro c hc
          exact h c (by rw [getLast_cons_of_ne_nil a hasne]; exact hc)
        intro c hc
        rw [collapseAux, if_neg ha] at hc
        rw [getLast_cons_of_ne_nil a (collapseAux_false_ne_nil hasne)] at hc
        exact ih htas false c hc

/-- C8: `normalize_job` is idempotent: normalizing an already-normalized job
changes nothing, because the normalized title has no leading, trailing or
doubled whitespace and the normalized url has no leading or trailing
whitespace. -/
theorem normalize_job_idempotent (j : Job) :
    normalize_job (normalize_job j) = normalize_job j := by
  unfold normalize_job
  simp only [Job.mk.injEq]
  constructor
  · show String.mk (collapseWS (pyStrip (collapseWS (pyStrip j.title.data)))) =
      String.mk (collapseWS (pyStrip j.title.data))
    have h1 : pyStrip (collapseWS (pyStrip j.title.data)) = collapseWS (pyStrip j.title.data) :=
      pyStrip_eq_self (collapseAux_noLead (pyStrip_noLead _))
        (collapseAux_noTrail _ (pyStrip_noTrail _) false)
    rw [h1]
    have h2 : collapseAux false (collapseWS (pyStrip j.title.data)) =
        collapseWS (pyStrip j.title.data) :=
      collapse_eq_self (collapseAux_noAdj _ false) (collapseAux_spacesBlank _ false)
    rw [show collapseWS (collapseWS (pyStrip j.title.data)) =
          collapseAux false (collapseWS (pyStrip j.title.data)) from rfl, h2]
  · show String.mk (pyStrip (pyStrip j.url.data)) = String.mk (pyStrip j.url.data)
    rw [pyStrip_eq_self (pyStrip_noLead _) (pyStrip_noTrail _)]

/-! ### `diff_jobs` facts -/

theorem count_filter_of_pos {α : Type} [DecidableEq α] (p : α → Bool) (a : α) (l : List α)
    (h : p a = true) : (l.filter p).count a = l.count a := by
  induction l with
  | nil => rfl
  | cons b bs ih =>
    by_cases hb : p b = true
    · rw [List.filter_cons_of_pos hb, List.count_cons, List.count_cons, ih]
    · rw [List.filter_cons_of_neg (by simp [hb]), List.count_cons, ih]
      have hba : (b == a) = false := by
        rw [beq_eq_false_iff_ne]
        intro hef
        subst hef
        exact hb h
      rw [hba]
      simp

theorem mem_oldUrlSet {old : List Job} {u : String} :
    u ∈ oldUrlSet old ↔ ∃ j ∈ old, j.url ≠ "" ∧ j.url = u := by
  unfold oldUrlSet
  simp only [List.mem_map, List.mem_filter]
  constructor
  · rintro ⟨j, ⟨hj, hne⟩, hu⟩
    exact ⟨j, hj, by simpa using hne, hu⟩
  · rintro ⟨j, hj, hne, hu⟩
    exact ⟨j, ⟨hj, by simpa using hne⟩, hu⟩

/-- C1 counterexample: with the previous list empty, a current job with an
empty URL is dropped by `diff_jobs` although its URL is not in the URL set of
the previous list, and a duplicated current job appears twice, not once. -/
theorem diff_jobs_exactly_once_fails :
    ¬(∀ (P C : List Job), ∀ j ∈ C, j.url ∉ P.map Job.url → (diff_jobs P C).count j = 1) := by
  intro h
  have h1 := h [] [⟨"a", ""⟩, ⟨"b", "u"⟩, ⟨"b", "u"⟩] ⟨"a", ""⟩ (by simp) (by simp)
  exact absurd h1 (by decide)

/-- C1 (amended): `diff_jobs(P, C)` contains only jobs with a non-empty URL
absent from the URLs of `P`, and when the URLs of `C` are pairwise distinct,
every job of `C` with a non-empty URL absent from the URLs of `P` appears in
the result exactly once. -/
theorem diff_jobs_only_new_once (old new : List Job) :
    (∀ j ∈ diff_jobs old new, j.url ≠ "" ∧ j.url ∉ old.map Job.url) ∧
    ((new.map Job.url).Nodup →
      ∀ j ∈ new, j.url ≠ "" → j.url ∉ old.map Job.url → (diff_jobs old new).count j = 1) := by
  constructor
  · intro j hj
    unfold diff_jobs at hj
    obtain ⟨hmem, hp⟩ := List.mem_filter.mp hj
    rw [decide_eq_true_iff] at hp
    obtain ⟨hne, hnin⟩ := hp
    refine ⟨hne, ?_⟩
    intro hin
    obtain ⟨jo, hjo, hju⟩ := List.mem_map.mp hin
    exact hnin (mem_oldUrlSet.mpr ⟨jo, hjo, by rw [hju]; exact hne, hju⟩)
  · intro hnd j hjm hne hnin
    have hp : decide (j.url ≠ "" ∧ j.url ∉ oldUrlSet old) = true := by
      rw [decide_eq_true_iff]
      refine ⟨hne, ?_⟩
      intro hin
      obtain ⟨jo, hjo, _, hju⟩ := mem_oldUrlSet.mp hin
      exact hnin (List.mem_map.mpr ⟨jo, hjo, hju⟩)
    unfold diff_jobs
    rw [count_filter_of_pos (fun j : Job => decide (j.url ≠ "" ∧ j.url ∉ oldUrlSet old)) j new hp]
    have h1 : new.count j ≤ 1 := List.nodup_iff_count_le_one.mp (hnd.of_map Job.url) j
    have h2 : 0 < new.count j := List.count_pos_iff.mpr hjm
    omega

theorem diff_jobs_only_new_once_witness :
    (([⟨"A", "https://x/1"⟩, ⟨"B", "https://x/2"⟩] : List Job).map Job.url).Nodup ∧
    (diff_jobs [⟨"A", "https://x/1"⟩] [⟨"A", "https://x/1"⟩, ⟨"B", "https://x/2"⟩]).count
      ⟨"B", "https://x/2"⟩ = 1 :=
  ⟨by decide,
   (diff_jobs_only_new_once [⟨"A", "https://x/1"⟩]
       [⟨"A", "https://x/1"⟩, ⟨"B", "https://x/2"⟩]).2
     (by decide) ⟨"B", "https://x/2"⟩ (by decide) (by decide) (by decide)⟩

/-! ### StateStore facts -/

/-- C7: loading the state for a key immediately after saving it returns
exactly the job list that was saved. -/
theorem state_roundtrip (st : Store) (key : String) (jobs : List Job) (now : String) :
    (load_previous (save_current st key jobs now) key).jobs = jobs := by
  unfold load_previous save_current
  simp

/-! ### `dedupe` facts -/

theorem listLe_total (x y : List Char) : listLe x y = true ∨ listLe y x = true := by
  induction x generalizing y with
  | nil => left; rfl
  | cons a as ih =>
    cases y with
    | nil => right; rfl
    | cons b bs =>
      rcases Nat.lt_trichotomy a.toNat b.toNat with h | h | h
      · left; simp [listLe, h]
      · rcases ih bs with h2 | h2
        · left; simp [listLe, h, h2]
        · right; simp [listLe, h.symm, h2]
      · right; simp [listLe, h]

theorem listLe_trans {x y z : List Char} (h1 : listLe x y = true) (h2 : listLe y z = true) :
    listLe x z = true := by
  induction x generalizing y z with
  | nil => rfl
  | cons a as ih =>
    cases y with
    | nil => simp [listLe] at h1
    | cons b bs =>
      cases z with
      | nil => simp [listLe] at h2
      | cons c cs =>
        simp only [listLe, Bool.or_eq_true, Bool.and_eq_true, decide_eq_true_iff] at h1 h2 ⊢
        rcases h1 with h1 | ⟨h1e, h1le⟩
        · rcases h2 with h2 | ⟨h2e, _⟩
          · exact Or.inl (Nat.lt_trans h1 h2)
          · exact Or.inl (h2e ▸ h1)
        · rcases h2 with h2 | ⟨h2e, h2le⟩
          · exact Or.inl (h1e ▸ h2)
          · exact Or.inr ⟨h1e.trans h2e, ih h1le h2le⟩

instance : IsTotal Job jobLe :=
  ⟨fun a b => listLe_total a.url.data b.url.data⟩

instance : IsTrans Job jobLe :=
  ⟨fun _ _ _ h1 h2 => listLe_trans h1 h2⟩

theorem dedupe_perm (jobs : List Job) : (dedupe jobs).Perm (dedupePass [] jobs) :=
  List.perm_insertionSort jobLe (dedupePass [] jobs)

theorem mem_dedupePass (j : Job) : ∀ (l : List Job) (seen : List String),
    j ∈ dedupePass seen l ↔
      j.url ≠ "" ∧ j.url ∉ seen ∧
        ∃ l1 l2, l.map normalize_job = l1 ++ j :: l2 ∧ ∀ x ∈ l1, x.url ≠ j.url := by
  intro l
  induction l with
  | nil =>
    intro seen
    simp [dedupePass]
  | cons a rest ih =>
    intro seen
    by_cases hskip : (normalize_job a).url = "" ∨ (normalize_job a).url ∈ seen
    · rw [show dedupePass seen (a :: rest) = dedupePass seen rest by
        rw [dedupePass]; simp only [hskip, if_pos]]
      rw [ih seen]
      constructor
      · rintro ⟨hne, hns, l1, l2, hdec, hall⟩
        refine ⟨hne, hns, normalize_job a :: l1, l2, by simp [hdec], ?_⟩
        intro x hx
        rcases List.mem_cons.mp hx with hxa | hxl
        · subst hxa
          rcases hskip with hsk | hsk
          · rw [hsk]; exact fun hh => hne hh.symm
          · intro hh; rw [hh] at hsk; exact hns hsk
        · exact hall x hxl
      · rintro ⟨hne, hns, l1, l2, hdec, hall⟩
        cases l1 with
        | nil =>
          simp only [List.map_cons, List.nil_append] at hdec
          have hja : normalize_job a = j := (List.cons.injEq _ _ _ _ ▸ hdec).1
          rcases hskip with hsk | hsk
          · exact absurd (hja ▸ hsk) hne
          · exact absurd (hja ▸ hsk) hns
        | cons x l1' =>
          simp only [List.map_cons, List.cons_append] at hdec
          have hx := (List.cons.injEq _ _ _ _ ▸ hdec).1
          have hrest : rest.map normalize_job = l1' ++ j :: l2 :=
            (List.cons.injEq _ _ _ _ ▸ hdec).2
          exact ⟨hne, hns, l1', l2, hrest, fun y hy => hall y (List.mem_cons_of_mem x hy)⟩
    · push_neg at hskip
      obtain ⟨hane, hans⟩ := hskip
      rw [show dedupePass seen (a :: rest) =
            normalize_job a :: dedupePass ((normalize_job a).url :: seen) rest by
        rw [dedupePass]; simp [hane, hans]]
      rw [List.mem_cons, ih ((normalize_job a).url :: seen)]
      constructor
      · rintro (hja | ⟨hne, hns, l1, l2, hdec, hall⟩)
        · subst hja
          exact ⟨hane, hans, [], rest.map normalize_job, by simp, by simp⟩
        · have hns' : j.url ∉ seen := fun hh => hns (List.mem_cons_of_mem _ hh)
          have hna : j.url ≠ (normalize_job a).url := fun hh => hns (hh ▸ List.mem_cons_self _ _)
          refine ⟨hne, hns', normalize_job a :: l1, l2, by simp [hdec], ?_⟩
          intro x hx
          rcases List.mem_cons.mp hx with hxa | hxl
          · subst hxa; exact fun hh => hna hh.symm
          · exact hall x hxl
      · rintro ⟨hne, hns, l1, l2, hdec, hall⟩
        cases l1 with
        | nil =>
          simp only [List.map_cons, List.nil_append] at hdec
          exact Or.inl ((List.cons.injEq _ _ _ _ ▸ hdec).1.symm)
        | cons x l1' =>
          simp only [List.map_cons, List.cons_append] at hdec
          have hx : normalize_job a = x := (List.cons.injEq _ _ _ _ ▸ hdec).1
          have hrest : rest.map normalize_job = l1' ++ j :: l2 :=
            (List.cons.injEq _ _ _ _ ▸ hdec).2
          have hna : (normalize_job a).url ≠ j.url := hx ▸ hall x (List.mem_cons_self x l1')
          refine Or.inr ⟨hne, ?_, l1', l2, hrest, fun y hy => hall y (List.mem_cons_of_mem x hy)⟩
          intro hh
          rcases List.mem_cons.mp hh with hh1 | hh2
          · exact hna hh1.symm
          · exact hns hh2

theorem dedupePass_nodup : ∀ (l : List Job) (seen : List String),
    ((dedupePass seen l).map Job.url).Nodup ∧
      ∀ u ∈ (dedupePass seen l).map Job.url, u ∉ seen := by
  intro l
  induction l with
  | nil => intro seen; simp [dedupePass]
  | cons a rest ih =>
    intro seen
    by_cases hskip : (normalize_job a).url = "" ∨ (normalize_job a).url ∈ seen
    · rw [show dedupePass seen (a :: rest) = dedupePass seen rest by
        rw [dedupePass]; simp only [hskip, if_pos]]
      exact ih seen
    · push_neg at hskip
      obtain ⟨hane, hans⟩ := hskip
      rw [show dedupePass seen (a :: rest) =
            normalize_job a :: dedupePass ((normalize_job a).url :: seen) rest by
        rw [dedupePass]; simp [hane, hans]]
      obtain ⟨hnd, hnin⟩ := ih ((normalize_job a).url :: seen)
      rw [List.map_cons]
      constructor
      · rw [List.nodup_cons]
        refine ⟨?_, hnd⟩
        intro hmem
        exact hnin _ hmem (List.mem_cons_self _ _)
      · intro u hu
        rcases List.mem_cons.mp hu with hu1 | hu2
        · subst hu1; exact hans
        · intro hseen
          exact hnin u hu2 (List.mem_cons_of_mem _ hseen)

theorem dedupePass_url_ne {l : List Job} {seen : List String} {j : Job}
    (h : j ∈ dedupePass seen l) : j.url ≠ "" :=
  ((mem_dedupePass j l seen).mp h).1

theorem mem_dedupe (jobs : List Job) (j : Job) :
    j ∈ dedupe jobs ↔ j ∈ dedupePass [] jobs :=
  (dedupe_perm jobs).mem_iff

/-- C6: `dedupe` discards entries whose normalized URL is empty, keeps exactly
the first occurrence per unique URL, produces no two entries with the same
URL, and returns the result sorted by URL in ascending order. -/
theorem dedupe_spec (jobs : List Job) :
    ((dedupe jobs).map Job.url).Nodup ∧
    (dedupe jobs).Sorted jobLe ∧
    (∀ j ∈ dedupe jobs, j.url ≠ "") ∧
    (∀ j, j ∈ dedupe jobs ↔
      j.url ≠ "" ∧ ∃ l1 l2, jobs.map normalize_job = l1 ++ j :: l2 ∧ ∀ x ∈ l1, x.url ≠ j.url) := by
  refine ⟨?_, ?_, ?_, ?_⟩
  · exact ((dedupe_perm jobs).map Job.url).symm.nodup (dedupePass_nodup jobs []).1
  · exact List.sorted_insertionSort jobLe (dedupePass [] jobs)
  · intro j hj
    exact dedupePass_url_ne ((mem_dedupe jobs j).mp hj)
  · intro j
    rw [mem_dedupe, mem_dedupePass]
    simp

theorem dedupe_spec_witness :
    (⟨"New Role", "https://x/2"⟩ : Job) ∈
        dedupe [⟨"  New   Role ", "https://x/2"⟩, ⟨"Other", "https://x/2"⟩] ∧
    (⟨"New Role", "https://x/2"⟩ : Job).url ≠ "" :=
  ⟨by decide,
   (((dedupe_spec [⟨"  New   Role ", "https://x/2"⟩, ⟨"Other", "https://x/2"⟩]).2.2.1)
     ⟨"New Role", "https://x/2"⟩ (by decide))⟩

/-- C9: for a key with no persisted state, `load_previous` returns an empty
job list and a null timestamp, and diffing any first-run extraction result
against that empty baseline reports every extracted job as new. -/
theorem first_run_empty_baseline (st : Store) (key : String) (raw : List Job)
    (h : st key = none) :
    (load_previous st key).jobs = [] ∧
    (load_previous st key).last_checked_utc = none ∧
    diff_jobs (load_previous st key).jobs (dedupe raw) = dedupe raw := by
  have hl : load_previous st key =
      { search_key := key, source_url := BASE_SEARCH_URL,
        last_checked_utc := none, jobs := [] } := by
    unfold load_previous
    rw [h]
  refine ⟨by rw [hl], by rw [hl], ?_⟩
  rw [hl]
  show diff_jobs [] (dedupe raw) = dedupe raw
  apply List.filter_eq_self.mpr
  intro j hj
  have hne : j.url ≠ "" := dedupePass_url_ne ((mem_dedupe raw j).mp hj)
  simp [hne, oldUrlSet]

theorem first_run_empty_baseline_witness :
    emptyStore "edinburgh-only" = none ∧
    diff_jobs (load_previous emptyStore "edinburgh-only").jobs
        (dedupe [⟨" New   Role ", "https://x/2"⟩]) =
      dedupe [⟨" New   Role ", "https://x/2"⟩] :=
  ⟨rfl,
   (first_run_empty_baseline emptyStore "edinburgh-only"
     [⟨" New   Role ", "https://x/2"⟩] rfl).2.2⟩

/-! ### Orchestration-loop facts -/

theorem runSearches_pre_ok_then_fail
    (ext : List String → Except FatalError (List Job × String)) (now : String) :
    ∀ (pre : List Config) (c0 : Config) (post : List Config) (st : Store) (e : FatalError),
      (∀ x ∈ pre, ∃ v, ext x.locations = Except.ok v) →
      ext c0.locations = Except.error e →
      (runSearches ext now (pre ++ c0 :: post) st).2 = Except.error e ∧
        ∀ k, k ∉ pre.map Config.key → (runSearches ext now (pre ++ c0 :: post) st).1 k = st k := by
  intro pre
  induction pre with
  | nil =>
    intro c0 post st e _ he
    rw [List.nil_append]
    rw [show runSearches ext now (c0 :: post) st = (st, Except.error e) by
      rw [runSearches, he]]
    exact ⟨rfl, fun _ _ => rfl⟩
  | cons x pre ih =>
    intro c0 post st e hok he
    obtain ⟨v, hv⟩ := hok x (List.mem_cons_self x pre)
    rcases v with ⟨cur, title⟩
    have ih' := ih c0 post (save_current st x.key cur now) e
      (fun y hy => hok y (List.mem_cons_of_mem x hy)) he
    rcases hrec : runSearches ext now (pre ++ c0 :: post) (save_current st x.key cur now)
      with ⟨st3, r3⟩
    rw [hrec] at ih'
    obtain ⟨h2, hsto⟩ := ih'
    cases r3 with
    | ok rs => exact absurd h2 (by simp)
    | error e3 =>
      have he3 : e3 = e := by simpa using h2
      have hmain : runSearches ext now ((x :: pre) ++ c0 :: post) st = (st3, Except.error e3) := by
        simp only [List.cons_append, runSearches, hv, List.append_eq, hrec]
      rw [hmain]
      refine ⟨by rw [he3], ?_⟩
      intro k hk
      have hkx : k ≠ x.key := by
        intro hh
        exact hk (by rw [List.map_cons, hh]; exact List.mem_cons_self _ _)
      have hkpre : k ∉ pre.map Config.key := by
        intro hh
        exact hk (by rw [List.map_cons]; exact List.mem_cons_of_mem _ hh)
      exact (hsto k hkpre).trans (by unfold save_current; rw [if_neg hkx])

/-- C2 counterexample: in a run where the first configured search
(edinburgh-only) fails fatally on its filter step while the second
(glasgow-only) would succeed, the script crashes: no run report is produced
and the second search's state is never written. -/
theorem main_run_no_partial_report :
    badExt ["Glasgow"] =
      Except.ok ([{ title := "Audit Analyst", url := "https://apply.deloitte.co.uk/job/77" }],
        "Search Jobs") ∧
    (mainRun badExt SEARCHES emptyStore "2026-10-12T00:00:00+00:00").2.1 = none ∧
    (mainRun badExt SEARCHES emptyStore "2026-10-12T00:00:00+00:00").1 "glasgow-only" = none :=
  ⟨rfl, rfl, rfl⟩

/-- C2 (amended): a fatal error while processing one search aborts the whole
run at that search: the error propagates, no run report is produced, and the
state of every key not saved before the failure is untouched. -/
theorem main_run_aborts_on_failure
    (ext : List String → Except FatalError (List Job × String)) (now : String)
    (pre : List Config) (c0 : Config) (post : List Config) (st : Store) (e : FatalError)
    (hok : ∀ x ∈ pre, ∃ v, ext x.locations = Except.ok v)
    (he : ext c0.locations = Except.error e) :
    (mainRun ext (pre ++ c0 :: post) st now).2.1 = none ∧
    (mainRun ext (pre ++ c0 :: post) st now).2.2 = some e ∧
    ∀ k, k ∉ pre.map Config.key → (mainRun ext (pre ++ c0 :: post) st now).1 k = st k := by
  obtain ⟨h2, hsto⟩ := runSearches_pre_ok_then_fail ext now pre c0 post st e hok he
  rcases hrec : runSearches ext now (pre ++ c0 :: post) st with ⟨st2, r⟩
  rw [hrec] at h2 hsto
  cases r with
  | ok rs => exact absurd h2 (by simp)
  | error e2 =>
    have he2 : e2 = e := by simpa using h2
    have hmain : mainRun ext (pre ++ c0 :: post) st now = (st2, none, some e2) := by
      simp only [mainRun, hrec]
    rw [hmain]
    exact ⟨rfl, by rw [he2], fun k hk => hsto k hk⟩

theorem main_run_aborts_on_failure_witness :
    badExt ["Edinburgh"] = Except.error FatalError.filterControlNotFound ∧
    (mainRun badExt SEARCHES emptyStore "t").2.1 = none ∧
    (mainRun badExt SEARCHES emptyStore "t").2.2 = some FatalError.filterControlNotFound :=
  ⟨rfl,
   (main_run_aborts_on_failure badExt "t" []
     { key := "edinburgh-only", label := "Deloitte jobs: Edinburgh only",
       locations := ["Edinburgh"] }
     [{ key := "glasgow-only", label := "Deloitte jobs: Glasgow only",
        locations := ["Glasgow"] }]
     emptyStore FatalError.filterControlNotFound (by simp) rfl).1,
   (main_run_aborts_on_failure badExt "t" []
     { key := "edinburgh-only", label := "Deloitte jobs: Edinburgh only",
       locations := ["Edinburgh"] }
     [{ key := "glasgow-only", label := "Deloitte jobs: Glasgow only",
        locations := ["Glasgow"] }]
     emptyStore FatalError.filterControlNotFound (by simp) rfl).2.1⟩

/-- C4: when a search fails fatally, `save_current` is never reached for that
key, so its previously persisted state is left unchanged. -/
theorem failed_search_state_untouched
    (ext : List String → Except FatalError (List Job × String)) (now : String)
    (pre : List Config) (c0 : Config) (post : List Config) (st : Store) (e : FatalError)
    (hok : ∀ x ∈ pre, ∃ v, ext x.locations = Except.ok v)
    (he : ext c0.locations = Except.error e)
    (hk : c0.key ∉ pre.map Config.key) :
    (mainRun ext (pre ++ c0 :: post) st now).1 c0.key = st c0.key := by
  obtain ⟨h2, hsto⟩ := runSearches_pre_ok_then_fail ext now pre c0 post st e hok he
  rcases hrec : runSearches ext now (pre ++ c0 :: post) st with ⟨st2, r⟩
  rw [hrec] at h2 hsto
  cases r with
  | ok rs => exact absurd h2 (by simp)
  | error e2 =>
    have hmain : mainRun ext (pre ++ c0 :: post) st now = (st2, none, some e2) := by
      simp only [mainRun, hrec]
    rw [hmain]
    exact hsto c0.key hk

theorem failed_search_state_untouched_witness :
    emptyStore "edinburgh-only" = none ∧
    (mainRun badExt SEARCHES emptyStore "t2").1 "edinburgh-only" = none :=
  ⟨rfl,
   failed_search_state_untouched badExt "t2" []
     { key := "edinburgh-only", label := "Deloitte jobs: Edinburgh only",
       locations := ["Edinburgh"] }
     [{ key := "glasgow-only", label := "Deloitte jobs: Glasgow only",
        locations := ["Glasgow"] }]
     emptyStore FatalError.filterControlNotFound (by simp) rfl (by simp)⟩

/-! ### FilterApplier effect-trace facts -/

theorem try_click_first_no_diag (l : List (String × Bool)) :
    ((try_click_first l).1).all (fun e => !e.isDiagnostic) = true := by
  induction l with
  | nil => rfl
  | cons p rest ih =>
    rcases p with ⟨d, ok⟩
    cases ok with
    | true => rfl
    | false =>
      rw [show try_click_first ((d, false) :: rest) = try_click_first rest by
        rw [try_click_first]; simp]
      exact ih

theorem selectLocation_no_diag (pg : Page) (loc : String) :
    ((selectLocation pg loc).1).all (fun e => !e.isDiagnostic) = true := by
  unfold selectLocation
  split
  · rfl
  · split
    · rfl
    · split
      · rfl
      · rfl

theorem selectLocations_no_diag (pg : Page) :
    ∀ locs : List String, ((selectLocations pg locs).1).all (fun e => !e.isDiagnostic) = true := by
  intro locs
  induction locs with
  | nil => rfl
  | cons loc0 rest ih =>
    rw [selectLocations]
    by_cases hempty : String.mk (pyStrip loc0.data) = ""
    · rw [if_pos hempty]
      exact ih
    · rw [if_neg hempty]
      rcases hsel : selectLocation pg (String.mk (pyStrip loc0.data)) with ⟨es, ok⟩
      have hes : es.all (fun e => !e.isDiagnostic) = true := by
        have := selectLocation_no_diag pg (String.mk (pyStrip loc0.data))
        rw [hsel] at this
        exact this
      cases ok with
      | true =>
        rcases hrest : selectLocations pg rest with ⟨es2, r⟩
        have hes2 : es2.all (fun e => !e.isDiagnostic) = true := by
          have := ih
          rw [hrest] at this
          exact this
        simp [List.all_append, hes, hes2]
      | false =>
        simpa using hes

theorem map_waitVisible_no_diag (locs : List String) :
    ((locs.map (fun loc => Effect.waitVisible loc)).all (fun e => !e.isDiagnostic)) = true := by
  induction locs with
  | nil => rfl
  | cons a r ih =>
    simp only [List.map_cons, List.all_cons, Bool.and_eq_true]
    exact ⟨rfl, ih⟩

/-- C3 (amended): `apply_location_filters_strict` never captures a diagnostic
bundle: its interaction trace contains no screenshot and no DOM-snapshot
action, on failure or on success; a fatal failure propagates as a bare
`RuntimeError`. -/
theorem apply_filters_never_diagnoses (pg : Page) (locations : List String) :
    ((apply_location_filters_strict pg locations).1).all (fun e => !e.isDiagnostic) = true := by
  unfold apply_location_filters_strict
  rcases h1 : try_click_first (openLocatorDescs.zip pg.openOutcomes) with ⟨es1, clicked⟩
  have hes1 : es1.all (fun e => !e.isDiagnostic) = true := by
    have := try_click_first_no_diag (openLocatorDescs.zip pg.openOutcomes)
    rw [h1] at this
    exact this
  have hes3 : ((try_click_first (clearLocatorDescs.zip pg.clearOutcomes)).1).all
      (fun e => !e.isDiagnostic) = true := try_click_first_no_diag _
  have hes5 : ((try_click_first (applyLocatorDescs.zip pg.applyOutcomes)).1).all
      (fun e => !e.isDiagnostic) = true := try_click_first_no_diag _
  cases clicked with
  | false => exact hes1
  | true =>
    rcases h4 : selectLocations pg locations with ⟨es4, r⟩
    have hes4 : es4.all (fun e => !e.isDiagnostic) = true := by
      have := selectLocations_no_diag pg locations
      rw [h4] at this
      exact this
    cases r with
    | error e =>
      simp only [List.all_append, Bool.and_eq_true]
      exact ⟨⟨⟨hes1, rfl⟩, hes3⟩, hes4⟩
    | ok u =>
      simp only [List.all_append, Bool.and_eq_true]
      exact ⟨⟨⟨⟨⟨⟨⟨hes1, rfl⟩, hes3⟩, hes4⟩, hes5⟩, rfl⟩,
        map_waitVisible_no_diag locations⟩, rfl⟩

/-- C3 counterexample: on a page where no locator matches, the filter step
fails fatally with `FilterControlNotFound` while its interaction trace is
empty, so no screenshot or DOM snapshot was captured before the error
propagated. -/
theorem filter_failure_without_bundle :
    (apply_location_filters_strict deadPage ["Edinburgh"]).2 =
      Except.error FatalError.filterControlNotFound ∧
    (apply_location_filters_strict deadPage ["Edinburgh"]).1 = [] :=
  ⟨rfl, rfl⟩

/-! ### href-resolution facts -/

/-- C5 counterexample: `mailto:` URLs have a URI scheme but are not kept
as-is; the extractor prefixes them with the site origin because it only tests
for the literal prefix `http`. -/
theorem resolveHref_scheme_not_kept :
    ¬(∀ href : String, hasScheme_spec href = true → resolveHref href = href) := by
  intro h
  have h1 := h "mailto:team@deloitte.example" (by decide)
  exact absurd h1 (by decide)

/-- C5 (amended): `resolveHref` prefixes the origin onto an href starting
with `/`, keeps an href starting with the literal `http` as-is, and otherwise
prefixes origin plus `/` onto the href unchanged (the `lstrip("/")` is a noop
on that branch because such an href cannot start with `/`). -/
theorem resolveHref_branches (href : String) :
    (strStartsWith href "/" = true → resolveHref href = SITE_ORIGIN ++ href) ∧
    (strStartsWith href "/" = false → strStartsWith href "http" = true →
      resolveHref href = href) ∧
    (strStartsWith href "/" = false → strStartsWith href "http" = false →
      resolveHref href = SITE_ORIGIN ++ "/" ++ href) := by
  refine ⟨?_, ?_, ?_⟩
  · intro h1
    unfold resolveHref
    rw [if_pos h1]
  · intro h1 h2
    unfold resolveHref
    rw [if_neg (by simp [h1]), if_pos h2]
  · intro h1 h2
    unfold resolveHref
    rw [if_neg (by simp [h1]), if_neg (by simp [h2])]
    have hns : lstripSlash href = href := by
      unfold lstripSlash
      rw [dropWhile_eq_self_of_head href.data ?_]
      intro c hc
      cases hd : href.data with
      | nil => rw [hd] at hc; simp at hc
      | cons a as =>
        rw [hd] at hc
        simp only [List.head?_cons, Option.some.injEq] at hc
        subst hc
        unfold strStartsWith at h1
        rw [show ("/" : String).data = ['/'] from rfl, hd, startsWithL] at h1
        have ha : ¬('/' = a) := by
          intro hcc
          rw [show startsWithL [] as = true from rfl, Bool.and_true] at h1
          rw [decide_eq_false_iff_not] at h1
          exact h1 hcc
        exact decide_eq_false (fun hh => ha hh.symm)
    rw [hns]

theorem resolveHref_branches_witness :
    strStartsWith "UKCareers/SearchJobs" "/" = false ∧
    strStartsWith "UKCareers/SearchJobs" "http" = false ∧
    resolveHref "UKCareers/SearchJobs" = SITE_ORIGIN ++ "/" ++ "UKCareers/SearchJobs" :=
  ⟨by decide, by decide,
   (resolveHref_branches "UKCareers/SearchJobs").2.2 (by decide) (by decide)⟩

/-! ### Extractor facts -/

/-- C10: the extraction loop emits a job for a link only if the resolved,
lower-cased URL contains one of the fixed job substrings and the trimmed
visible text length lies between 6 and 160 inclusive. -/
theorem extract_emission_bounds (anchors : List Anchor) (j : Job)
    (h : j ∈ extractCandidates anchors) :
    looksLikeJob j.url = true ∧ 6 ≤ j.title.length ∧ j.title.length ≤ 160 := by
  unfold extractCandidates at h
  obtain ⟨a, _, ha⟩ := List.mem_filterMap.mp h
  unfold anchorToJob at ha
  by_cases h1 : a.href = ""
  · rw [if_pos h1] at ha
    exact absurd ha (by simp)
  · rw [if_neg h1] at ha
    by_cases h2 : (looksLikeJob (resolveHref a.href) &&
        (decide (6 ≤ (String.mk (pyStrip a.text.data)).length) &&
         decide ((String.mk (pyStrip a.text.data)).length ≤ 160))) = true
    · rw [if_pos h2] at ha
      obtain ⟨hlooks, hlen⟩ := Bool.and_eq_true_iff.mp h2
      obtain ⟨hlo, hhi⟩ := Bool.and_eq_true_iff.mp hlen
      have hj : j = { title := String.mk (pyStrip a.text.data), url := resolveHref a.href } := by
        simpa using ha.symm
      subst hj
      exact ⟨hlooks, by simpa using hlo, by simpa using hhi⟩
    · rw [if_neg h2] at ha
      exact absurd ha (by simp)

theorem extract_emission_bounds_witness :
    (⟨"Senior   Auditor", "https://apply.deloitte.co.uk/job/123"⟩ : Job) ∈
      extractCandidates [⟨"/job/123", "  Senior   Auditor  "⟩] ∧
    looksLikeJob "https://apply.deloitte.co.uk/job/123" = true :=
  ⟨by decide,
   (extract_emission_bounds [⟨"/job/123", "  Senior   Auditor  "⟩]
     ⟨"Senior   Auditor", "https://apply.deloitte.co.uk/job/123"⟩ (by decide)).1⟩
